import Mathlib

/-!
Shallow embedding of the hint-execution core of TechVest/cairo-vm-go:
`pkg/hintrunner/zero/zerohint.go` (hint bodies and reference resolution)
and `pkg/hintrunner/hinter/dict.go` (dictionary managers), together with
theorems settling the specification claims.

Field elements (`fp.Element` of the gnark stark-curve `fp` package) are
modelled as natural numbers; comparisons reduce modulo the STARK prime,
matching the canonical-representative comparisons of `utils.FeltLt` /
`utils.FeltLe`.  Memory addresses are `(segment_index, offset)` pairs with
an integer segment index (temporary segments are negative).  Memory writes
performed by a hint body are recorded as an explicit list of
`(address, value)` pairs.
-/

namespace CairoVM

/-- The STARK field prime `2^251 + 17 * 2^192 + 1` used by the
gnark stark-curve `fp` package. -/
def PRIME : Nat := 2 ^ 251 + 17 * 2 ^ 192 + 1

/-- `mem.MemoryAddress`: a segment index plus an offset.  Temporary
segments carry negative indices. -/
structure MemoryAddress where
  segmentIndex : Int
  offset : Nat
  deriving DecidableEq, Repr

/-- `utils.FeltLt`: strict comparison of the canonical (reduced)
representatives of two field elements. -/
def FeltLt (a b : Nat) : Bool := decide (a % PRIME < b % PRIME)

/-- `utils.FeltLe`: non-strict comparison of the canonical (reduced)
representatives of two field elements. -/
def FeltLe (a b : Nat) : Bool := decide (a % PRIME ≤ b % PRIME)

/-- `utils.FeltMax128` (`1 << 128`), the range-check builtin bound. -/
def FeltMax128 : Nat := 2 ^ 128

/-- The body of the `IsLeFelt` hint (`createIsLeFeltHinter` in
`zerohint.go`): writes `0` to the allocation-pointer address if
`(a % PRIME) <= (b % PRIME)` else `1`.  The returned list records the
memory writes performed. -/
def isLeFeltOp (apAddr : MemoryAddress) (a b : Nat) : List (MemoryAddress × Nat) :=
  let v : Nat := if FeltLe a b then 0 else 1
  [(apAddr, v)]

/-- The body of the `IsNN` hint (`createIsNNHinter` in `zerohint.go`):
writes `0` to the allocation-pointer address if
`(a % PRIME) < range_check_builtin.bound` else `1`. -/
def isNNOp (apAddr : MemoryAddress) (a : Nat) : List (MemoryAddress × Nat) :=
  let v : Nat := if FeltLt a FeltMax128 then 0 else 1
  [(apAddr, v)]

/-- The body of the `IsNNOutOfRange` hint (`createIsNNOutOfRangeHinter` in
`zerohint.go`): it computes `lhs = (-a - 1) mod PRIME` (two field
subtractions from zero), but the branch deciding the written value tests
`a` itself against the range-check bound, exactly as `IsNN` does; `lhs`
is never used. -/
def isNNOutOfRangeOp (apAddr : MemoryAddress) (a : Nat) : List (MemoryAddress × Nat) :=
  let negA : Nat := (PRIME - a % PRIME) % PRIME
  let lhs : Nat := (negA + (PRIME - 1)) % PRIME
  let v : Nat := if FeltLt a FeltMax128 then 0 else 1
  [(apAddr, v)]

/-- Claim C4: executing `IsLeFelt` performs exactly one memory write, at the
allocation-pointer address: `0` if `a <= b` on canonical reduced
representatives, else `1`; in particular `(3,5) ↦ 0`, `(5,3) ↦ 1`,
`(4,4) ↦ 0`. -/
theorem isLeFelt_write_spec (apAddr : MemoryAddress) (a b : Nat) :
    isLeFeltOp apAddr a b = [(apAddr, if a % PRIME ≤ b % PRIME then 0 else 1)] ∧
    isLeFeltOp apAddr 3 5 = [(apAddr, 0)] ∧
    isLeFeltOp apAddr 5 3 = [(apAddr, 1)] ∧
    isLeFeltOp apAddr 4 4 = [(apAddr, 0)] := by
  refine ⟨?_, ?_, ?_, ?_⟩
  · by_cases h : a % PRIME ≤ b % PRIME <;> simp [isLeFeltOp, FeltLe, h]
  · have h : FeltLe 3 5 = true := by decide
    simp [isLeFeltOp, h]
  · have h : FeltLe 5 3 = false := by decide
    simp [isLeFeltOp, h]
  · have h : FeltLe 4 4 = true := by decide
    simp [isLeFeltOp, h]

/-- Claim C3: executing `IsNNOutOfRange` writes exactly the value `IsNN`
would write for the same operand: `0` to the allocation-pointer address if
the canonical representative of `a` is below `2^128`, else `1`; the
conceptually computed `(-a - 1) mod PRIME` does not influence the written
value. -/
theorem isNNOutOfRange_eq_isNN (apAddr : MemoryAddress) (a : Nat) :
    isNNOutOfRangeOp apAddr a = isNNOp apAddr a ∧
    isNNOp apAddr a = [(apAddr, if a % PRIME < 2 ^ 128 then 0 else 1)] := by
  constructor
  · rfl
  · unfold isNNOp FeltLt FeltMax128
    rw [Nat.mod_eq_of_lt (by decide : (2 ^ 128 : Nat) < PRIME)]
    by_cases h : a % PRIME < 2 ^ 128 <;> simp [h]

/-- `zero.Reference` as consumed by `getParameters`: a definition point
(program counter) and the raw value expression recorded there.  The
ap-tracking data and expression parsing are outside the selection logic
this models. -/
structure Reference where
  pc : Nat
  value : String
  deriving DecidableEq, Repr

/-- Errors surfaced by the embedded operations (the Go code returns
`fmt.Errorf` values; the constructors below name the spec's error kinds). -/
inductive HintError where
  | noApplicableReference (name : String) (hintPC : Nat)
  | noDictionaryAtAddress (addr : MemoryAddress)
  | noValueForKey (key : Nat)
  | alreadyInitialized
  | noKeysLeft
  | noIndicesForKey (key : Nat)
  deriving DecidableEq, Repr

/-- The reference-selection loop of `getParameters` in `zerohint.go`:
Go iterates `i` from `len(references)-1` down to `0` and breaks at the
first reference with `Pc <= hintPC`; if none is found it errors
(`NoApplicableReference`).  Scanning the reversed list for the first
match is that loop. -/
def getReferenceForHint (name : String) (references : List Reference) (hintPC : Nat) :
    Except HintError Reference :=
  match references.reverse.find? (fun r => r.pc ≤ hintPC) with
  | some r => .ok r
  | none => .error (.noApplicableReference name hintPC)

/-- In a list sorted descending by `pc`, the first element satisfying
`pc ≤ hintPC` has the greatest `pc` among all elements satisfying it. -/
theorem find_first_is_max (hintPC : Nat) :
    ∀ l : List Reference, l.Pairwise (fun a b => b.pc ≤ a.pc) →
      ∀ r, l.find? (fun r => r.pc ≤ hintPC) = some r →
        ∀ s ∈ l, s.pc ≤ hintPC → s.pc ≤ r.pc := by
  intro l hl
  induction l with
  | nil => intro r hr; simp [List.find?] at hr
  | cons x xs ih =>
    intro r hr s hs hspc
    rw [List.pairwise_cons] at hl
    by_cases hx : x.pc ≤ hintPC
    · rw [List.find?_cons_of_pos _ (by simpa using hx)] at hr
      cases hr
      rcases List.mem_cons.mp hs with hseq | hsmem
      · subst hseq; exact le_refl _
      · exact hl.1 s hsmem
    · rw [List.find?_cons_of_neg _ (by simpa using hx)] at hr
      rcases List.mem_cons.mp hs with hseq | hsmem
      · subst hseq; exact absurd hspc hx
      · exact ih hl.2 r hr s hsmem hspc

/-- Claim C2 (amended): when an identifier's references are listed in
non-decreasing `pc` order (definition order), the `getParameters` scan
selects the reference with the greatest `program_counter` less than or
equal to the hint's program counter, and fails with
`NoApplicableReference` exactly when no reference has
`program_counter <= hint_program_counter`.  (On an unsorted list the scan
selects the last-listed qualifying reference, which need not carry the
greatest qualifying `pc` — see the counterexample.) -/
theorem getReference_selects_latest (name : String) (references : List Reference)
    (hintPC : Nat) (hsorted : references.Pairwise (fun a b => a.pc ≤ b.pc)) :
    (∀ r, getReferenceForHint name references hintPC = .ok r →
        r ∈ references ∧ r.pc ≤ hintPC ∧
        ∀ s ∈ references, s.pc ≤ hintPC → s.pc ≤ r.pc) ∧
    (getReferenceForHint name references hintPC =
        .error (.noApplicableReference name hintPC) ↔
      ∀ r ∈ references, hintPC < r.pc) ∧
    ((∃ r ∈ references, r.pc ≤ hintPC) →
      ∃ r, getReferenceForHint name references hintPC = .ok r) := by
  have hrev : references.reverse.Pairwise (fun a b => b.pc ≤ a.pc) := by
    rw [List.pairwise_reverse]; exact hsorted
  refine ⟨?_, ?_, ?_⟩
  · intro r hr
    unfold getReferenceForHint at hr
    cases hfind : references.reverse.find? (fun r => r.pc ≤ hintPC) with
    | none => rw [hfind] at hr; exact absurd hr (by simp)
    | some r' =>
      rw [hfind] at hr
      cases hr
      have hmem : r ∈ references.reverse := List.mem_of_find?_eq_some hfind
      have hple : r.pc ≤ hintPC := by
        have := List.find?_some hfind
        simpa using this
      refine ⟨List.mem_reverse.mp hmem, hple, ?_⟩
      intro s hsmem hspc
      exact find_first_is_max hintPC references.reverse hrev r hfind s
        (List.mem_reverse.mpr hsmem) hspc
  · unfold getReferenceForHint
    cases hfind : references.reverse.find? (fun r => r.pc ≤ hintPC) with
    | none =>
      simp only [List.find?_eq_none] at hfind
      constructor
      · intro _ r hr
        have := hfind r (List.mem_reverse.mpr hr)
        simpa using this
      · intro _; rfl
    | some r' =>
      have hple : r'.pc ≤ hintPC := by
        have := List.find?_some hfind
        simpa using this
      have hmem : r' ∈ references := List.mem_reverse.mp (List.mem_of_find?_eq_some hfind)
      constructor
      · intro h; exact absurd h (by simp)
      · intro h; exact absurd hple (Nat.not_le.mpr (h r' hmem))
  · rintro ⟨r, hr, hrpc⟩
    unfold getReferenceForHint
    cases hfind : references.reverse.find? (fun r => r.pc ≤ hintPC) with
    | none =>
      simp only [List.find?_eq_none] at hfind
      have := hfind r (List.mem_reverse.mpr hr)
      simp [hrpc] at this
    | some r' => exact ⟨r', rfl⟩

/-- Claim C2, counterexample to the claim as stated: with the reference
list `[{pc 5}, {pc 0}]` (not sorted by `pc`) and a hint at `pc 7`, the
scan selects the reference with `pc 0`, although the reference with
`pc 5` also satisfies `pc ≤ 7` and `5` is the greatest such
`program_counter` — so resolution does not always select the reference
with the greatest qualifying `pc`. -/
theorem getReference_unsorted_cex :
    getReferenceForHint "a" [⟨5, "x"⟩, ⟨0, "y"⟩] 7 = .ok ⟨0, "y"⟩ ∧
    (⟨5, "x"⟩ : Reference) ∈ [(⟨5, "x"⟩ : Reference), ⟨0, "y"⟩] ∧
    (5 : Nat) ≤ 7 ∧ ¬ (5 : Nat) ≤ 0 := by
  refine ⟨rfl, by simp, by decide, by decide⟩

/-- Claim C2, witness: the amended theorem applied to the spec's example,
references at `pc {0, 5, 10}` with a hint at `pc 7` (the reference at
`pc 5` is selected), and a hint at `pc 4` with a single reference at
`pc 5` (which fails with `NoApplicableReference`). -/
theorem getReference_selects_latest_witness :
    ([(⟨0, "r0"⟩ : Reference), ⟨5, "r5"⟩, ⟨10, "r10"⟩].Pairwise (fun a b => a.pc ≤ b.pc) ∧
      getReferenceForHint "a" [⟨0, "r0"⟩, ⟨5, "r5"⟩, ⟨10, "r10"⟩] 7 = .ok ⟨5, "r5"⟩) ∧
    getReferenceForHint "a" [⟨5, "r5"⟩] 4 = .error (.noApplicableReference "a" 4) := by
  refine ⟨⟨by decide, rfl⟩, ?_⟩
  exact (getReference_selects_latest "a" [⟨5, "r5"⟩] 4 (by decide)).2.1.mpr
    (by decide)

/-- A Go `map[int]α` modelled as an association list with unique keys.
Lookup returns the binding of the first matching key. -/
def mapLookup {α : Type} : List (Int × α) → Int → Option α
  | [], _ => none
  | e :: es, k => if e.1 = k then some e.2 else mapLookup es k

/-- Go map assignment `m[k] = v`: replace the binding if the key is
present, otherwise add a new binding. -/
def mapInsert {α : Type} : List (Int × α) → Int → α → List (Int × α)
  | [], k, v => [(k, v)]
  | e :: es, k, v => if e.1 = k then (k, v) :: es else e :: mapInsert es k v

theorem mapLookup_mapInsert_self {α : Type} (l : List (Int × α)) (k : Int) (v : α) :
    mapLookup (mapInsert l k v) k = some v := by
  induction l with
  | nil => simp [mapInsert, mapLookup]
  | cons e es ih =>
    by_cases h : e.1 = k
    · simp [mapInsert, mapLookup, h]
    · simp [mapInsert, mapLookup, h, ih]

/-- `Dictionary` of `dict.go`: the key→value data (field-element keys as
canonical naturals, memory values as opaque naturals), the creation index
`idx`, and the `end` address.  The Go `map[f.Element]*mem.MemoryValue` is
modelled as a function to `Option`. -/
structure Dictionary where
  data : Nat → Option Nat
  idx : Nat
  endAddr : MemoryAddress

/-- `Dictionary.At`: the value stored at `key`, or a no-value-for-key
error. -/
def Dictionary.At (d : Dictionary) (key : Nat) : Except HintError Nat :=
  match d.data key with
  | some value => .ok value
  | none => .error (.noValueForKey key)

/-- `Dictionary.Set`: stores `value` at `key`. -/
def Dictionary.Set (d : Dictionary) (key : Nat) (value : Nat) : Dictionary :=
  { d with data := fun k => if k = key then some value else d.data k }

/-- `Dictionary.SetEnd`. -/
def Dictionary.SetEnd (d : Dictionary) (e : MemoryAddress) : Dictionary :=
  { d with endAddr := e }

/-- `Dictionary.InitNumber`. -/
def Dictionary.InitNumber (d : Dictionary) : Nat := d.idx

/-- `DictionaryManager` of `dict.go`.  The Go `map[int]Dictionary` is
modelled as an association list with unique keys; the iteration order of
a Go map is unspecified, so `RelocateAllDictionaries` below is stated
over an explicit iteration order (a permutation of the entries). -/
structure DictionaryManager where
  dictionaries : List (Int × Dictionary)
  useTemporarySegments : Bool

/-- Modelled from the spec: the memory-model segment allocation interface
(`pkg/vm/memory` is outside the given sources).  Per §2 and §6 of the
spec, `allocate_segment` returns the base address `(index, 0)` of a fresh
real segment with monotonically growing indices, and
`allocate_temporary_segment` returns the base of a fresh temporary
segment with a fresh negative index. -/
structure SegmentAllocator where
  nextSegment : Nat
  nextTempSegment : Nat
  deriving DecidableEq, Repr

/-- Modelled from the spec: `vm.Memory.AllocateEmptySegment`. -/
def AllocateEmptySegment (m : SegmentAllocator) : MemoryAddress × SegmentAllocator :=
  (⟨(m.nextSegment : Int), 0⟩, ⟨m.nextSegment + 1, m.nextTempSegment⟩)

/-- Modelled from the spec: `vm.Memory.AllocateEmptyTemporarySegment`. -/
def AllocateEmptyTemporarySegment (m : SegmentAllocator) : MemoryAddress × SegmentAllocator :=
  (⟨-((m.nextTempSegment : Int) + 1), 0⟩, ⟨m.nextSegment, m.nextTempSegment + 1⟩)

/-- `DictionaryManager.NewDictionary`: allocates a segment (temporary if
configured), registers an empty dictionary under that segment's index
with `idx = len(dm.dictionaries)` and zero-valued `end` address, and
returns the segment's base address. -/
def DictionaryManager.NewDictionary (dm : DictionaryManager) (mem : SegmentAllocator) :
    MemoryAddress × DictionaryManager × SegmentAllocator :=
  let alloc :=
    if dm.useTemporarySegments then AllocateEmptyTemporarySegment mem
    else AllocateEmptySegment mem
  (alloc.1,
    { dm with dictionaries := (mapInsert dm.dictionaries alloc.1.segmentIndex
        ⟨fun _ => none, dm.dictionaries.length, ⟨0, 0⟩⟩) },
    alloc.2)

/-- `DictionaryManager.GetDictionary`. -/
def DictionaryManager.GetDictionary (dm : DictionaryManager) (dictAddr : MemoryAddress) :
    Except HintError Dictionary :=
  match mapLookup dm.dictionaries dictAddr.segmentIndex with
  | some dict => .ok dict
  | none => .error (.noDictionaryAtAddress dictAddr)

/-- `DictionaryManager.At`. -/
def DictionaryManager.At (dm : DictionaryManager) (dictAddr : MemoryAddress) (key : Nat) :
    Except HintError Nat :=
  match mapLookup dm.dictionaries dictAddr.segmentIndex with
  | some dict => dict.At key
  | none => .error (.noDictionaryAtAddress dictAddr)

/-- `DictionaryManager.Set`: stores `value` under `key` in the dictionary
of `dictAddr`'s segment and sets that dictionary's `end` address to
`dictAddr`; errors if the segment is untracked. -/
def DictionaryManager.Set (dm : DictionaryManager) (dictAddr : MemoryAddress)
    (key : Nat) (value : Nat) : Except HintError DictionaryManager :=
  match mapLookup dm.dictionaries dictAddr.segmentIndex with
  | some dict =>
    .ok { dm with dictionaries := (mapInsert dm.dictionaries dictAddr.segmentIndex
            ((dict.Set key value).SetEnd dictAddr)) }
  | none => .error (.noDictionaryAtAddress dictAddr)

/-- The loop body of `DictionaryManager.RelocateAllDictionaries`: for each
entry `(key, dict)` of the iteration, add the relocation rule
`AddRelocationRule(-key, segmentAddr)` and then advance
`segmentAddr.Offset` by `dict.end.Offset + 1`.  The produced rules are
recorded as `(from_segment, to_address)` pairs of the spec-modelled
`add_relocation_rule` interface (§6; `pkg/vm/memory` is outside the given
sources). -/
def relocLoop : List (Int × Dictionary) → MemoryAddress → List (Int × MemoryAddress)
  | [], _ => []
  | (key, dict) :: rest, segmentAddr =>
    (-key, segmentAddr) ::
      relocLoop rest ⟨segmentAddr.segmentIndex, segmentAddr.offset + (dict.endAddr.offset + 1)⟩

/-- `DictionaryManager.RelocateAllDictionaries`: allocates one fresh real
segment and runs the relocation loop over the manager's dictionaries.
Because Go map iteration order is unspecified, the function takes the
iteration order explicitly: `order` ranges over the permutations of
`dm.dictionaries`. -/
def RelocateAllDictionaries (order : List (Int × Dictionary)) (mem : SegmentAllocator) :
    List (Int × MemoryAddress) × SegmentAllocator :=
  let alloc := AllocateEmptySegment mem
  (relocLoop order alloc.1, alloc.2)

/-- A successful `Set` rewrites the targeted dictionary with the new
key binding and `end` address. -/
theorem set_ok (dm : DictionaryManager) (addr : MemoryAddress) (d : Dictionary)
    (k v : Nat) (hlook : mapLookup dm.dictionaries addr.segmentIndex = some d) :
    dm.Set addr k v = .ok { dm with dictionaries := (mapInsert dm.dictionaries
      addr.segmentIndex ((d.Set k v).SetEnd addr)) } := by
  simp [DictionaryManager.Set, hlook]

/-- Reads after a successful `Set`: the written key returns the written
value, and a key absent from the dictionary still fails. -/
theorem at_after_set (dm dm' : DictionaryManager) (addr : MemoryAddress) (d : Dictionary)
    (k v k2 : Nat) (hk : k2 ≠ k)
    (hlook : mapLookup dm.dictionaries addr.segmentIndex = some d)
    (hset : dm.Set addr k v = .ok dm') :
    dm'.At addr k = .ok v ∧
    (d.data k2 = none → dm'.At addr k2 = .error (.noValueForKey k2)) := by
  simp only [DictionaryManager.Set, hlook, Except.ok.injEq] at hset
  subst hset
  constructor
  · simp [DictionaryManager.At, mapLookup_mapInsert_self, Dictionary.At,
      Dictionary.Set, Dictionary.SetEnd]
  · intro hnone
    simp [DictionaryManager.At, mapLookup_mapInsert_self, Dictionary.At,
      Dictionary.Set, Dictionary.SetEnd, hk, hnone]

/-- Claim C7: `new_dictionary()` returns an address `A` whose segment is
then tracked; `set(A, k, v)` succeeds and `at(A, k)` returns `v`;
`at(A, k2)` for a key `k2` never set fails with `NoValueForKey`; and `at`
on an address whose segment index is untracked fails with
`NoDictionaryAtAddress`. -/
theorem dictionary_round_trip (dm : DictionaryManager) (mem : SegmentAllocator)
    (k v k2 : Nat) (addr : MemoryAddress)
    (hk : k2 ≠ k)
    (huntracked : mapLookup dm.dictionaries addr.segmentIndex = none) :
    dm.At addr k = .error (.noDictionaryAtAddress addr) ∧
    ∃ dm2,
      ((dm.NewDictionary mem).2.1).Set (dm.NewDictionary mem).1 k v = .ok dm2 ∧
      dm2.At (dm.NewDictionary mem).1 k = .ok v ∧
      dm2.At (dm.NewDictionary mem).1 k2 = .error (.noValueForKey k2) := by
  constructor
  · simp [DictionaryManager.At, huntracked]
  · have hlook : mapLookup ((dm.NewDictionary mem).2.1).dictionaries
        ((dm.NewDictionary mem).1).segmentIndex =
        some ⟨fun _ => none, dm.dictionaries.length, ⟨0, 0⟩⟩ :=
      mapLookup_mapInsert_self _ _ _
    obtain ⟨hat1, hat2⟩ :=
      at_after_set _ _ _ _ k v k2 hk hlook (set_ok _ _ _ k v hlook)
    exact ⟨_, set_ok _ _ _ k v hlook, hat1, hat2 rfl⟩

/-- Claim C7, witness: on a fresh manager with temporary segments, the
round trip holds for `k = 1`, `v = 42`, `k2 = 2`, with untracked segment
`7`. -/
theorem dictionary_round_trip_witness :
    ((2 : Nat) ≠ 1 ∧
      mapLookup (DictionaryManager.dictionaries ⟨[], true⟩)
        (MemoryAddress.segmentIndex ⟨7, 0⟩) = none) ∧
    (DictionaryManager.At ⟨[], true⟩ ⟨7, 0⟩ 1 = .error (.noDictionaryAtAddress ⟨7, 0⟩) ∧
      ∃ dm2,
        ((DictionaryManager.NewDictionary ⟨[], true⟩ ⟨0, 0⟩).2.1).Set
            (DictionaryManager.NewDictionary ⟨[], true⟩ ⟨0, 0⟩).1 1 42 = .ok dm2 ∧
        dm2.At (DictionaryManager.NewDictionary ⟨[], true⟩ ⟨0, 0⟩).1 1 = .ok 42 ∧
        dm2.At (DictionaryManager.NewDictionary ⟨[], true⟩ ⟨0, 0⟩).1 2 =
          .error (.noValueForKey 2)) :=
  ⟨⟨by decide, rfl⟩,
    dictionary_round_trip ⟨[], true⟩ ⟨0, 0⟩ 1 42 2 ⟨7, 0⟩ (by decide) rfl⟩

/-- A sequence of `Set` calls, mirroring repeated executions of the
dict-write hints; stops at the first error. -/
def SetMany : DictionaryManager → List (MemoryAddress × Nat × Nat) →
    Except HintError DictionaryManager
  | dm, [] => .ok dm
  | dm, w :: ws =>
    match DictionaryManager.Set dm w.1 w.2.1 w.2.2 with
    | .ok dm' => SetMany dm' ws
    | .error e => .error e

/-- After a successful `Set`, the targeted dictionary's `end` address is
the address that was given to `Set`. -/
theorem set_ok_end (dm dm' : DictionaryManager) (addr : MemoryAddress) (k v : Nat)
    (h : dm.Set addr k v = .ok dm') :
    (mapLookup dm'.dictionaries addr.segmentIndex).map (fun d => d.endAddr) =
      some addr := by
  cases hlook : mapLookup dm.dictionaries addr.segmentIndex with
  | none => simp [DictionaryManager.Set, hlook] at h
  | some d =>
    simp only [DictionaryManager.Set, hlook, Except.ok.injEq] at h
    subst h
    simp [mapLookup_mapInsert_self, Dictionary.SetEnd, Dictionary.Set]

/-- After a successful sequence of `Set` calls all targeting segment `s`,
the dictionary at `s` carries the `end` address of the last call. -/
theorem setMany_end : ∀ (ws : List (MemoryAddress × Nat × Nat))
    (dm dm2 : DictionaryManager) (w : MemoryAddress × Nat × Nat) (s : Int),
    (∀ x ∈ ws, x.1.segmentIndex = s) → SetMany dm ws = .ok dm2 →
    ws.getLast? = some w →
    (mapLookup dm2.dictionaries s).map (fun d => d.endAddr) = some w.1 := by
  intro ws
  induction ws with
  | nil => intro dm dm2 w s _ _ hlast; simp at hlast
  | cons x ws ih =>
    intro dm dm2 w s hseg hmany hlast
    cases hset : DictionaryManager.Set dm x.1 x.2.1 x.2.2 with
    | error e => simp [SetMany, hset] at hmany
    | ok dmx =>
      simp only [SetMany, hset] at hmany
      cases ws with
      | nil =>
        simp only [SetMany, Except.ok.injEq] at hmany
        have hxw : x = w := by simpa using hlast
        subst hxw
        have hend := set_ok_end dm dmx x.1 x.2.1 x.2.2 hset
        rw [hseg x (by simp)] at hend
        rwa [hmany] at hend
      | cons y ys =>
        have hlast' : (y :: ys).getLast? = some w := by
          rw [List.getLast?_cons_cons] at hlast; exact hlast
        exact ih dmx dm2 w s (fun z hz => hseg z (by simp [hz])) hmany hlast'

/-- Claim C5 (amended): after `set(address, key, value)` the dictionary's
`end_address` equals the given address; over a successful sequence of
`set` calls on one dictionary, `end_address` equals the address of the
most recent (last) call — which is the highest write location only when
offsets never decrease; and `set` on an untracked segment index fails
with `NoDictionaryAtAddress`. -/
theorem set_tracks_last_write (dm dm1 dm2 : DictionaryManager) (addr : MemoryAddress)
    (k v : Nat) (s : Int) (ws : List (MemoryAddress × Nat × Nat))
    (w : MemoryAddress × Nat × Nat)
    (hset : dm.Set addr k v = .ok dm1)
    (hseg : ∀ x ∈ ws, x.1.segmentIndex = s)
    (hmany : SetMany dm ws = .ok dm2)
    (hlast : ws.getLast? = some w) :
    (mapLookup dm1.dictionaries addr.segmentIndex).map (fun d => d.endAddr) = some addr ∧
    (mapLookup dm2.dictionaries s).map (fun d => d.endAddr) = some w.1 ∧
    (∀ (dmu : DictionaryManager) (au : MemoryAddress) (ku vu : Nat),
        mapLookup dmu.dictionaries au.segmentIndex = none →
        dmu.Set au ku vu = .error (.noDictionaryAtAddress au)) :=
  ⟨set_ok_end dm dm1 addr k v hset,
    setMany_end ws dm dm2 w s hseg hmany hlast,
    fun dmu au ku vu hu => by simp [DictionaryManager.Set, hu]⟩

/-- A manager with one (real-segment) dictionary at segment `0`, used by
the C5 theorems. -/
def c5dm0 : DictionaryManager := ⟨[(0, ⟨fun _ => none, 0, ⟨0, 0⟩⟩)], false⟩

/-- Extracts the manager of a successful dictionary operation. -/
def okOr (e : Except HintError DictionaryManager) (dflt : DictionaryManager) :
    DictionaryManager :=
  match e with
  | .ok dm => dm
  | .error _ => dflt

/-- The manager after writing at offset `5` of segment `0`. -/
def c5dmA : DictionaryManager := okOr (c5dm0.Set ⟨0, 5⟩ 1 10) c5dm0

/-- The manager after then writing at offset `2` of segment `0`. -/
def c5dmB : DictionaryManager := okOr (c5dmA.Set ⟨0, 2⟩ 2 20) c5dm0

/-- Claim C5, counterexample to the claim as stated: writing at offset `5`
and then at offset `2` leaves `end_address` at offset `2`, although the
highest write location seen has offset `5` — `end_address` tracks the
most recent write, not the highest. -/
theorem set_end_not_highest_cex :
    c5dm0.Set ⟨0, 5⟩ 1 10 = .ok c5dmA ∧
    c5dmA.Set ⟨0, 2⟩ 2 20 = .ok c5dmB ∧
    (mapLookup c5dmB.dictionaries 0).map (fun d => d.endAddr) = some ⟨0, 2⟩ ∧
    (2 : Nat) < 5 :=
  ⟨rfl, rfl, rfl, by decide⟩

/-- The two-write sequence used by the C5 witness. -/
def c5ws : List (MemoryAddress × Nat × Nat) := [(⟨0, 1⟩, 1, 10), (⟨0, 4⟩, 2, 20)]

/-- The manager after executing `c5ws` from `c5dm0`. -/
def c5dmC : DictionaryManager := okOr (SetMany c5dm0 c5ws) c5dm0

/-- The manager after writing at offset `1` of segment `0`. -/
def c5dmA' : DictionaryManager := okOr (c5dm0.Set ⟨0, 1⟩ 1 10) c5dm0

/-- Claim C5, witness: one `Set` records its address as `end_address`, and
the two-write sequence `c5ws` leaves the `end_address` of the last
write. -/
theorem set_tracks_last_write_witness :
    (c5dm0.Set ⟨0, 1⟩ 1 10 = .ok c5dmA' ∧
      SetMany c5dm0 c5ws = .ok c5dmC ∧
      c5ws.getLast? = some (⟨0, 4⟩, 2, 20)) ∧
    ((mapLookup c5dmA'.dictionaries (MemoryAddress.segmentIndex ⟨0, 1⟩)).map
        (fun d => d.endAddr) = some ⟨0, 1⟩ ∧
      (mapLookup c5dmC.dictionaries 0).map (fun d => d.endAddr) =
        some (MemoryAddress.mk 0 4) ∧
      (∀ (dmu : DictionaryManager) (au : MemoryAddress) (ku vu : Nat),
          mapLookup dmu.dictionaries au.segmentIndex = none →
          dmu.Set au ku vu = .error (.noDictionaryAtAddress au))) :=
  ⟨⟨rfl, rfl, rfl⟩,
    set_tracks_last_write c5dm0 c5dmA' c5dmC ⟨0, 1⟩ 1 10 0 c5ws (⟨0, 4⟩, 2, 20)
      rfl (by decide) rfl rfl⟩

theorem relocLoop_length : ∀ (order : List (Int × Dictionary)) (addr : MemoryAddress),
    (relocLoop order addr).length = order.length := by
  intro order
  induction order with
  | nil => intro addr; rfl
  | cons e rest ih =>
    intro addr
    obtain ⟨key, dict⟩ := e
    simp [relocLoop, ih]

/-- The `i`-th rule produced by the relocation loop: the negated `i`-th
key, at the starting address advanced by the spans
(`end.Offset + 1`) of the dictionaries already processed. -/
theorem relocLoop_get : ∀ (order : List (Int × Dictionary)) (addr : MemoryAddress)
    (i : Nat) (hi : i < order.length) (hlen : i < (relocLoop order addr).length),
    (relocLoop order addr).get ⟨i, hlen⟩ =
      (-(order.get ⟨i, hi⟩).1,
        ⟨addr.segmentIndex,
          addr.offset + ((order.take i).map (fun e => e.2.endAddr.offset + 1)).sum⟩) := by
  intro order
  induction order with
  | nil => intro addr i hi; exact absurd hi (by simp)
  | cons e rest ih =>
    intro addr i hi hlen
    obtain ⟨key, dict⟩ := e
    cases i with
    | zero => simp [relocLoop]
    | succ i =>
      have hi' : i < rest.length := by simpa using hi
      have hlen' : i < (relocLoop rest
          ⟨addr.segmentIndex, addr.offset + (dict.endAddr.offset + 1)⟩).length := by
        rw [relocLoop_length]; exact hi'
      have := ih ⟨addr.segmentIndex, addr.offset + (dict.endAddr.offset + 1)⟩ i hi' hlen'
      simp only [relocLoop, List.get_cons_succ, this, List.take_succ_cons,
        List.map_cons, List.sum_cons]
      simp only [Prod.mk.injEq, MemoryAddress.mk.injEq, true_and, and_true]
      omega

/-- Claim C6 (amended): `relocate_all` allocates exactly one fresh real
segment (no temporary segment), produces one relocation rule per tracked
dictionary, and the `i`-th rule of the iteration is keyed by the
negation of the `i`-th dictionary's segment index and maps to the fresh
segment at the next free offset: the sum of `end_address.offset + 1` over
the dictionaries already processed. -/
theorem relocateAll_rule_offsets (order : List (Int × Dictionary)) (mem : SegmentAllocator)
    (i : Nat) (hi : i < order.length)
    (hlen : i < ((RelocateAllDictionaries order mem).1).length) :
    (RelocateAllDictionaries order mem).2 = ⟨mem.nextSegment + 1, mem.nextTempSegment⟩ ∧
    ((RelocateAllDictionaries order mem).1).length = order.length ∧
    ((RelocateAllDictionaries order mem).1).get ⟨i, hlen⟩ =
      (-(order.get ⟨i, hi⟩).1,
        ⟨(mem.nextSegment : Int),
          ((order.take i).map (fun e => e.2.endAddr.offset + 1)).sum⟩) := by
  refine ⟨rfl, relocLoop_length order _, ?_⟩
  have h := relocLoop_get order ⟨(mem.nextSegment : Int), 0⟩ i hi hlen
  simpa using h

/-- A dictionary on temporary segment `-1` whose `end` offset is `2`,
used by the C6 theorems. -/
def c6d1 : Dictionary := ⟨fun _ => none, 0, ⟨-1, 2⟩⟩

/-- A dictionary on temporary segment `-2` whose `end` offset is `0`,
used by the C6 and C1 theorems. -/
def c6d2 : Dictionary := ⟨fun _ => none, 1, ⟨-2, 0⟩⟩

/-- The entries of a manager holding `c6d1` and `c6d2`, in one iteration
order. -/
def c6order : List (Int × Dictionary) := [(-1, c6d1), (-2, c6d2)]

/-- Claim C6, counterexample to the claim as stated: for a dictionary on
temporary segment `-1`, the single installed rule is keyed `1` — the
negation of the dictionary's segment index — and no rule is keyed by the
dictionary's segment index `-1` itself (`AddRelocationRule(-key, ...)` in
`RelocateAllDictionaries`). -/
theorem relocateAll_rule_key_cex :
    (RelocateAllDictionaries [(-1, c6d1)] ⟨0, 0⟩).1 =
      [((1 : Int), (⟨(0 : Int), 0⟩ : MemoryAddress))] ∧
    mapLookup (RelocateAllDictionaries [(-1, c6d1)] ⟨0, 0⟩).1 (-1) = none ∧
    (1 : Int) ≠ -1 :=
  ⟨rfl, rfl, by decide⟩

/-- Claim C6, witness: on the two-dictionary manager `c6order` with `end`
offsets `2` and `0`, relocation allocates segment `0` once and the second
rule is keyed `2` at offset `3 = (2 + 1)`. -/
theorem relocateAll_rule_offsets_witness :
    (1 < c6order.length) ∧
    ((RelocateAllDictionaries c6order ⟨0, 0⟩).2 = ⟨1, 0⟩ ∧
      ((RelocateAllDictionaries c6order ⟨0, 0⟩).1).length = c6order.length ∧
      ((RelocateAllDictionaries c6order ⟨0, 0⟩).1).get ⟨1, by decide⟩ =
        (-(c6order.get ⟨1, by decide⟩).1,
          ⟨((0 : Nat) : Int),
            ((c6order.take 1).map (fun e => e.2.endAddr.offset + 1)).sum⟩)) :=
  ⟨by decide, relocateAll_rule_offsets c6order ⟨0, 0⟩ 1 (by decide) (by decide)⟩

/-- Claim C1: the two iteration orders of the same two-dictionary manager
(`end` offsets `2` and `0`, the spec's §8.8 example) are permutations of
one another, yet the rule installed for the dictionary on segment `-1`
(rule key `1`) maps to offset `0` under one order and offset `1` under
the other: the relocation offsets depend on the Go map iteration order. -/
theorem relocateAll_order_dependent :
    List.Perm [((-1 : Int), c6d1), (-2, c6d2)] [((-2 : Int), c6d2), (-1, c6d1)] ∧
    mapLookup (RelocateAllDictionaries [((-1 : Int), c6d1), (-2, c6d2)] ⟨0, 0⟩).1 1 =
      some ⟨(0 : Int), 0⟩ ∧
    mapLookup (RelocateAllDictionaries [((-2 : Int), c6d2), (-1, c6d1)] ⟨0, 0⟩).1 1 =
      some ⟨(0 : Int), 1⟩ ∧
    ((⟨(0 : Int), 0⟩ : MemoryAddress) ≠ ⟨(0 : Int), 1⟩) :=
  ⟨List.Perm.swap _ _ _, rfl, rfl, by decide⟩

/-- `SquashedDictionaryManager` of `dict.go`: key→access-index lists and a
descending key list.  `Option` distinguishes Go's `nil` map/slice (the
zero value of the run context's field) from the initialized empty
containers, which is exactly what `InitializeSquashedDictionaryManager`
tests; the field-element keys are canonical naturals. -/
structure SquashedDictionaryManager where
  KeyToIndices : Option (Nat → Option (List Nat))
  Keys : Option (List Nat)

/-- `InitializeSquashedDictionaryManager`: errors if either field is
already non-nil, otherwise installs the empty map and the empty key
list. -/
def InitSquashedDictionaryManager (sdm : SquashedDictionaryManager) :
    Except HintError SquashedDictionaryManager :=
  match sdm.KeyToIndices, sdm.Keys with
  | none, none => .ok ⟨some (fun _ => none), some []⟩
  | _, _ => .error .alreadyInitialized

/-- `SquashedDictionaryManager.Insert`: appends `index` to the index list
of `key`, creating the list if the key is new.  (Go would panic on a nil
map; `Insert` only runs after initialization, where the map is present.) -/
def SquashedDictionaryManager.Insert (sdm : SquashedDictionaryManager)
    (key index : Nat) : SquashedDictionaryManager :=
  match (sdm.KeyToIndices.getD (fun _ => none)) key with
  | some indices =>
    { sdm with KeyToIndices := (some (fun k =>
        if k = key then some (indices ++ [index])
        else (sdm.KeyToIndices.getD (fun _ => none)) k)) }
  | none =>
    { sdm with KeyToIndices := (some (fun k =>
        if k = key then some [index]
        else (sdm.KeyToIndices.getD (fun _ => none)) k)) }

/-- `SquashedDictionaryManager.LastKey`: the tail of the key list, or a
no-keys-left error (a nil key slice has length `0`). -/
def SquashedDictionaryManager.LastKey (sdm : SquashedDictionaryManager) :
    Except HintError Nat :=
  match (sdm.Keys.getD []).getLast? with
  | some key => .ok key
  | none => .error .noKeysLeft

/-- `SquashedDictionaryManager.PopKey`: removes and returns the tail of
the key list. -/
def SquashedDictionaryManager.PopKey (sdm : SquashedDictionaryManager) :
    Except HintError (Nat × SquashedDictionaryManager) :=
  match sdm.LastKey with
  | .error e => .error e
  | .ok key => .ok (key, { sdm with Keys := some ((sdm.Keys.getD []).dropLast) })

/-- `SquashedDictionaryManager.LastIndices`: the index list recorded for
the tail key (the nil slice for an unrecorded key). -/
def SquashedDictionaryManager.LastIndices (sdm : SquashedDictionaryManager) :
    Except HintError (List Nat) :=
  match sdm.LastKey with
  | .error e => .error e
  | .ok key => .ok ((sdm.KeyToIndices.getD (fun _ => none) key).getD [])

/-- `SquashedDictionaryManager.LastIndex`: the last index recorded for the
tail key, or a no-indices-for-key error on an empty index list
(`getLast?` is `none` exactly when `len(indices) == 0`). -/
def SquashedDictionaryManager.LastIndex (sdm : SquashedDictionaryManager) :
    Except HintError Nat :=
  match sdm.LastKey with
  | .error e => .error e
  | .ok key =>
    match (((sdm.KeyToIndices.getD (fun _ => none)) key).getD []).getLast? with
    | none => .error (.noIndicesForKey key)
    | some index => .ok index

/-- `SquashedDictionaryManager.PopIndex`: removes and returns the last
index recorded for the tail key, shrinking that key's list by one. -/
def SquashedDictionaryManager.PopIndex (sdm : SquashedDictionaryManager) :
    Except HintError (Nat × SquashedDictionaryManager) :=
  match sdm.LastKey with
  | .error e => .error e
  | .ok key =>
    match (((sdm.KeyToIndices.getD (fun _ => none)) key).getD []).getLast? with
    | none => .error (.noIndicesForKey key)
    | some index =>
      .ok (index,
        { sdm with KeyToIndices := (some (fun k =>
            if k = key
            then some ((((sdm.KeyToIndices.getD (fun _ => none)) key).getD []).dropLast)
            else (sdm.KeyToIndices.getD (fun _ => none)) k)) })

/-- `Insert` leaves `Keys` untouched and rebinds exactly the inserted key,
appending the new index to the key's previous list (the empty list for a
new key). -/
theorem insert_spec (sdm : SquashedDictionaryManager) (m : Nat → Option (List Nat))
    (key idx : Nat) (hm : sdm.KeyToIndices = some m) :
    (sdm.Insert key idx).Keys = sdm.Keys ∧
    ∃ m', (sdm.Insert key idx).KeyToIndices = some m' ∧
      m' key = some ((m key).getD [] ++ [idx]) ∧
      ∀ k, k ≠ key → m' k = m k := by
  simp only [SquashedDictionaryManager.Insert, hm, Option.getD_some]
  cases hmk : m key with
  | some indices =>
    simp only [hmk]
    refine ⟨by simp, _, rfl, ?_, ?_⟩
    · simp [hmk]
    · intro k hkne; simp [hkne]
  | none =>
    simp only [hmk]
    refine ⟨by simp, _, rfl, ?_, ?_⟩
    · simp [hmk]
    · intro k hkne; simp [hkne]

/-- Claim C8: two `insert` calls on the same key append in order, so the
key's list ends `[i1, i2]`; when that key is the tail key, `last_indices`
returns the list and `pop_index` removes and returns `i2`, leaving `i1`
recorded. -/
theorem insert_appends_indices (sdm : SquashedDictionaryManager)
    (m : Nat → Option (List Nat)) (k i1 i2 : Nat)
    (hm : sdm.KeyToIndices = some m)
    (hk : (sdm.Keys.getD []).getLast? = some k) :
    ∃ m2, ((sdm.Insert k i1).Insert k i2).KeyToIndices = some m2 ∧
      m2 k = some ((m k).getD [] ++ [i1, i2]) ∧
      ((sdm.Insert k i1).Insert k i2).LastIndices = .ok ((m k).getD [] ++ [i1, i2]) ∧
      ∃ s3 m3, ((sdm.Insert k i1).Insert k i2).PopIndex = .ok (i2, s3) ∧
        s3.KeyToIndices = some m3 ∧
        m3 k = some ((m k).getD [] ++ [i1]) ∧
        s3.Keys = sdm.Keys := by
  obtain ⟨hkeys1, m1, hm1, hm1k, _⟩ := insert_spec sdm m k i1 hm
  obtain ⟨hkeys2, m2, hm2, hm2k', _⟩ := insert_spec _ m1 k i2 hm1
  have hm2k : m2 k = some ((m k).getD [] ++ [i1, i2]) := by
    rw [hm2k', hm1k]; simp
  have hkeys : ((sdm.Insert k i1).Insert k i2).Keys = sdm.Keys := by
    rw [hkeys2, hkeys1]
  have hlk : ((sdm.Insert k i1).Insert k i2).LastKey = .ok k := by
    unfold SquashedDictionaryManager.LastKey
    rw [hkeys, hk]
  refine ⟨m2, hm2, hm2k, ?_, ?_⟩
  · unfold SquashedDictionaryManager.LastIndices
    simp [hlk, hm2, hm2k]
  · unfold SquashedDictionaryManager.PopIndex
    have hm2kc : m2 k = some (((m k).getD [] ++ [i1]) ++ [i2]) := by
      rw [hm2k]; simp
    simp only [hlk, hm2, Option.getD_some, hm2kc, List.getLast?_concat,
      List.dropLast_concat]
    refine ⟨_, _, rfl, rfl, ?_, ?_⟩
    · simp
    · exact hkeys

/-- The squashed manager used by the C8 witness: initialized, no indices
recorded yet, key list `[7]`. -/
def c8sdm : SquashedDictionaryManager := ⟨some (fun _ => none), some [7]⟩

/-- The C8 witness manager after `insert(7, 3)` and `insert(7, 9)`. -/
def c8s2 : SquashedDictionaryManager := (c8sdm.Insert 7 3).Insert 7 9

/-- Claim C8, witness: on `c8sdm` (tail key `7`), inserting indices `3`
then `9` yields the list `[3, 9]`, `last_indices` returns it, and
`pop_index` returns `9` leaving `[3]`. -/
theorem insert_appends_indices_witness :
    (c8sdm.KeyToIndices = some (fun _ => none) ∧
      (c8sdm.Keys.getD []).getLast? = some 7) ∧
    (∃ m2, c8s2.KeyToIndices = some m2 ∧
      m2 7 = some [3, 9] ∧
      c8s2.LastIndices = .ok [3, 9] ∧
      ∃ s3 m3, c8s2.PopIndex = .ok (9, s3) ∧
        s3.KeyToIndices = some m3 ∧
        m3 7 = some [3] ∧
        s3.Keys = some [7]) :=
  ⟨⟨rfl, rfl⟩,
    insert_appends_indices c8sdm (fun _ => none) 7 3 9 rfl rfl⟩

/-- The mutating operations of the squashed dictionary manager, as
invoked by the squashing hints after initialization. -/
inductive SDMOp where
  | insertOp (key index : Nat)
  | popKeyOp
  | popIndexOp
  | initOp

/-- Runs one operation; failing operations leave the manager unchanged
(the Go methods return the error before mutating). -/
def applySDMOp (sdm : SquashedDictionaryManager) : SDMOp → SquashedDictionaryManager
  | .insertOp k i => sdm.Insert k i
  | .popKeyOp =>
    match sdm.PopKey with
    | .ok p => p.2
    | .error _ => sdm
  | .popIndexOp =>
    match sdm.PopIndex with
    | .ok p => p.2
    | .error _ => sdm
  | .initOp =>
    match InitSquashedDictionaryManager sdm with
    | .ok s => s
    | .error _ => sdm

/-- Runs a sequence of operations left to right. -/
def applySDMOps (sdm : SquashedDictionaryManager) (ops : List SDMOp) :
    SquashedDictionaryManager :=
  ops.foldl applySDMOp sdm

/-- The zero value of the run context's squashed-manager field: both the
map and the key slice are nil. -/
def freshSDM : SquashedDictionaryManager := ⟨none, none⟩

/-- An initialized manager: both containers are non-nil. -/
def sdmInitialized (sdm : SquashedDictionaryManager) : Prop :=
  sdm.KeyToIndices.isSome = true ∧ sdm.Keys.isSome = true

/-- Initialization fails on an already-initialized manager. -/
theorem init_fails_of_initialized (sdm : SquashedDictionaryManager)
    (h : sdmInitialized sdm) :
    InitSquashedDictionaryManager sdm = .error .alreadyInitialized := by
  obtain ⟨h1, _⟩ := h
  cases hk : sdm.KeyToIndices with
  | none => rw [hk] at h1; simp at h1
  | some a => simp [InitSquashedDictionaryManager, hk]

/-- Every operation preserves initializedness: the mutating methods only
replace the containers with non-nil values or leave them alone. -/
theorem sdm_op_preserves_initialized (sdm : SquashedDictionaryManager) (op : SDMOp)
    (h : sdmInitialized sdm) : sdmInitialized (applySDMOp sdm op) := by
  cases op with
  | insertOp k i =>
    unfold applySDMOp SquashedDictionaryManager.Insert
    cases hmk : (sdm.KeyToIndices.getD (fun _ => none)) k <;>
      simp [hmk, sdmInitialized, h.2]
  | popKeyOp =>
    unfold applySDMOp SquashedDictionaryManager.PopKey
    cases hlk : sdm.LastKey with
    | error e => simpa [hlk] using h
    | ok key => simp [hlk, sdmInitialized, h.1]
  | popIndexOp =>
    unfold applySDMOp SquashedDictionaryManager.PopIndex
    cases hlk : sdm.LastKey with
    | error e => simpa [hlk] using h
    | ok key =>
      cases hgl : (((sdm.KeyToIndices.getD (fun _ => none)) key).getD []).getLast? with
      | none => simpa [hlk, hgl] using h
      | some idx => simp [hlk, hgl, sdmInitialized, h.2]
  | initOp =>
    unfold applySDMOp
    rw [init_fails_of_initialized sdm h]
    exact h

/-- Initializedness is preserved along any sequence of operations. -/
theorem sdm_ops_preserve_initialized : ∀ (ops : List SDMOp)
    (sdm : SquashedDictionaryManager), sdmInitialized sdm →
    sdmInitialized (applySDMOps sdm ops) := by
  intro ops
  induction ops with
  | nil => intro sdm h; exact h
  | cons op ops ih =>
    intro sdm h
    exact ih (applySDMOp sdm op) (sdm_op_preserves_initialized sdm op h)

/-- Claim C9: on the fresh (zero-valued) run context the first
`initialize()` succeeds, and after it every later `initialize()` — with
any sequence of manager operations in between — fails with
`AlreadyInitialized`. -/
theorem sdm_init_at_most_once :
    InitSquashedDictionaryManager freshSDM = .ok ⟨some (fun _ => none), some []⟩ ∧
    ∀ (s0 : SquashedDictionaryManager) (ops : List SDMOp),
      InitSquashedDictionaryManager freshSDM = .ok s0 →
      InitSquashedDictionaryManager (applySDMOps s0 ops) =
        .error .alreadyInitialized := by
  refine ⟨rfl, ?_⟩
  intro s0 ops h
  have hs0 : s0 = ⟨some (fun _ => none), some []⟩ := by
    simpa [InitSquashedDictionaryManager, freshSDM] using h.symm
  subst hs0
  exact init_fails_of_initialized _
    (sdm_ops_preserve_initialized ops _ ⟨rfl, rfl⟩)

/-- Claim C9, witness: the second `initialize()` fails after the first,
here with an `insert`, a `pop_key` and a redundant `initialize` in
between. -/
theorem sdm_init_at_most_once_witness :
    InitSquashedDictionaryManager freshSDM = .ok ⟨some (fun _ => none), some []⟩ ∧
    InitSquashedDictionaryManager
        (applySDMOps ⟨some (fun _ => none), some []⟩
          [SDMOp.insertOp 7 3, SDMOp.popKeyOp, SDMOp.initOp]) =
      .error .alreadyInitialized :=
  ⟨rfl,
    sdm_init_at_most_once.2 ⟨some (fun _ => none), some []⟩
      [SDMOp.insertOp 7 3, SDMOp.popKeyOp, SDMOp.initOp] rfl⟩

/-- A sequence of `insert` calls. -/
def applyInserts (sdm : SquashedDictionaryManager) (ins : List (Nat × Nat)) :
    SquashedDictionaryManager :=
  ins.foldl (fun s e => s.Insert e.1 e.2) sdm

theorem applyInserts_keys : ∀ (ins : List (Nat × Nat))
    (sdm : SquashedDictionaryManager), (applyInserts sdm ins).Keys = sdm.Keys := by
  intro ins
  induction ins with
  | nil => intro sdm; rfl
  | cons e ins ih =>
    intro sdm
    have h1 : (sdm.Insert e.1 e.2).Keys = sdm.Keys := by
      unfold SquashedDictionaryManager.Insert
      cases hmk : (sdm.KeyToIndices.getD (fun _ => none)) e.1 <;> simp [hmk]
    calc (applyInserts sdm (e :: ins)).Keys
        = (applyInserts (sdm.Insert e.1 e.2) ins).Keys := rfl
      _ = (sdm.Insert e.1 e.2).Keys := ih _
      _ = sdm.Keys := h1

/-- Claim C10: `insert` never modifies `Keys` — over any sequence of
inserts the key list is unchanged — so a key recorded only via `insert`
and never added to `Keys` by the external populating algorithm is never
returned by `last_key` or `pop_key`. -/
theorem insert_preserves_keys (sdm : SquashedDictionaryManager)
    (ins : List (Nat × Nat)) (k : Nat)
    (hk : k ∉ sdm.Keys.getD []) :
    (applyInserts sdm ins).Keys = sdm.Keys ∧
    (∀ r, (applyInserts sdm ins).LastKey = .ok r → r ≠ k) ∧
    (∀ r s', (applyInserts sdm ins).PopKey = .ok (r, s') → r ≠ k) := by
  have hkeys := applyInserts_keys ins sdm
  have hlast : ∀ r, (applyInserts sdm ins).LastKey = .ok r → r ≠ k := by
    intro r hr
    unfold SquashedDictionaryManager.LastKey at hr
    rw [hkeys] at hr
    cases hgl : (sdm.Keys.getD []).getLast? with
    | none => rw [hgl] at hr; exact absurd hr (by simp)
    | some key =>
      rw [hgl] at hr
      have hrk : key = r := by simpa using hr
      subst hrk
      intro hcontra
      subst hcontra
      exact hk (List.mem_of_getLast?_eq_some hgl)
  refine ⟨hkeys, hlast, ?_⟩
  intro r s' hr
  unfold SquashedDictionaryManager.PopKey at hr
  cases hlk : (applyInserts sdm ins).LastKey with
  | error e => rw [hlk] at hr; exact absurd hr (by simp)
  | ok key =>
    rw [hlk] at hr
    have : key = r := by simp at hr; exact hr.1
    subst this
    exact hlast key hlk

/-- Claim C10, witness: with key list `[5]`, recording indices for key `7`
via two inserts leaves `Keys` unchanged, and neither `last_key` nor
`pop_key` returns `7`. -/
theorem insert_preserves_keys_witness :
    ((7 : Nat) ∉ (SquashedDictionaryManager.Keys
        ⟨some (fun _ => none), some [5]⟩).getD []) ∧
    ((applyInserts ⟨some (fun _ => none), some [5]⟩ [(7, 3), (7, 9)]).Keys =
        some [5] ∧
      (∀ r, (applyInserts ⟨some (fun _ => none), some [5]⟩ [(7, 3), (7, 9)]).LastKey =
          .ok r → r ≠ 7) ∧
      (∀ r s', (applyInserts ⟨some (fun _ => none), some [5]⟩ [(7, 3), (7, 9)]).PopKey =
          .ok (r, s') → r ≠ 7)) :=
  ⟨by decide,
    insert_preserves_keys ⟨some (fun _ => none), some [5]⟩ [(7, 3), (7, 9)] 7
      (by decide)⟩

end CairoVM
